import Mathlib

/-!
Verification development for the mask-reconstruction core of
src/cellpose/models.py (class CellposeModel, methods _run_cp and
_compute_masks).

The embedding is 2D (the shape taken by every per-plane call of
_compute_masks).  Real-valued image data is idealised over ℚ; labels over ℤ.
Subroutines that live outside src/ (dynamics.follow_flows, dynamics.get_masks,
transforms.normalize_field, transforms.normalize99, sklearn DBSCAN,
cv2 nearest-neighbour resize, utils diameter estimators) are threaded through
an explicit record of external functions, or modelled from the spec where a
claim is about them; everything appearing in src/cellpose/models.py itself is
translated directly.
-/

set_option maxHeartbeats 1000000

/-- A pixel coordinate of an Ly × Lx grid (row, column). -/
abbrev Pix (Ly Lx : ℕ) := Fin Ly × Fin Lx

/-- Real-valued grid (dist, bd, div fields). -/
abbrev QGrid (Ly Lx : ℕ) := Pix Ly Lx → ℚ

/-- Boolean grid (masks). -/
abbrev BGrid (Ly Lx : ℕ) := Pix Ly Lx → Bool

/-- Integer label grid. -/
abbrev ZGrid (Ly Lx : ℕ) := Pix Ly Lx → ℤ

/-- Vector-field grid: component 0 is the y-flow dP[0], component 1 the
x-flow dP[1]. -/
abbrev VGrid (Ly Lx : ℕ) := Pix Ly Lx → ℚ × ℚ

/-- 4-connected adjacency of two pixels (the connectivity used by
scipy.ndimage.label's default structure and skimage label(connectivity=1)). -/
def adjPix {Ly Lx : ℕ} (p q : Pix Ly Lx) : Bool :=
  decide ((p.1 = q.1 ∧ (p.2.val + 1 = q.2.val ∨ q.2.val + 1 = p.2.val)) ∨
          (p.2 = q.2 ∧ (p.1.val + 1 = q.1.val ∨ q.1.val + 1 = p.1.val)))

/-- One breadth-first expansion step of region growing inside the pixel set
satisfying P. -/
def expandSet {Ly Lx : ℕ} (P : BGrid Ly Lx) (S : Finset (Pix Ly Lx)) :
    Finset (Pix Ly Lx) :=
  S ∪ Finset.univ.filter (fun q => P q = true ∧ ∃ r ∈ S, adjPix r q = true)

/-- All pixels reachable from p through P-pixels: breadth-first expansion
iterated to saturation (the grid size bounds the number of useful rounds). -/
def reachSet {Ly Lx : ℕ} (P : BGrid Ly Lx) (p : Pix Ly Lx) :
    Finset (Pix Ly Lx) :=
  (expandSet P)^[Fintype.card (Pix Ly Lx)] {p}

/-- A single step of a connectivity path: move to a 4-adjacent pixel that
satisfies P. -/
def ReachStep {Ly Lx : ℕ} (P : BGrid Ly Lx) (a b : Pix Ly Lx) : Prop :=
  adjPix a b = true ∧ P b = true

/-- Connectivity relation: b is joined to a by a chain of 4-adjacent pixels
satisfying P (the source pixel a itself is unconstrained). -/
def Reaches {Ly Lx : ℕ} (P : BGrid Ly Lx) (a b : Pix Ly Lx) : Prop :=
  Relation.ReflTransGen (ReachStep P) a b

/-- Row-major enumeration of grid pixels (the flattened order used by
numpy reshape / nonzero). -/
def pixList (Ly Lx : ℕ) : List (Pix Ly Lx) :=
  (List.finRange Ly).flatMap (fun y => (List.finRange Lx).map (fun x => (y, x)))

/-! Model of fastremap.renumber(mask, in_place=True) (external library call on
line 795 of models.py, whose src comment states the intent: guarantee
non-skipped labels): every distinct nonzero value, in order of first
appearance in the flattened array, is remapped to 1, 2, 3, ...; zero is
preserved. -/

/-- The distinct nonzero values of a label grid in order of first appearance
(row-major scan). -/
def labelVals {Ly Lx : ℕ} (L : ZGrid Ly Lx) : List ℤ :=
  (((pixList Ly Lx).map L).filter (fun v => decide (v ≠ 0))).dedup

/-- Model of fastremap.renumber with zero preservation. -/
def renumber {Ly Lx : ℕ} (L : ZGrid Ly Lx) : ZGrid Ly Lx :=
  fun p => if L p = 0 then 0 else ((labelVals L).indexOf (L p) : ℤ) + 1

/-- The number of distinct positive labels present in a grid. -/
def distinctPosCount {Ly Lx : ℕ} (L : ZGrid Ly Lx) : ℕ :=
  ((Finset.univ.image L).filter (fun v => 0 < v)).card

/-- Output invariant claimed for _compute_masks label grids: no negative
values, every value is at most the number K of distinct positive labels, and
each of 1..K occurs; hence max(L) = K. -/
def DenseLabels {Ly Lx : ℕ} (L : ZGrid Ly Lx) : Prop :=
  (∀ p, 0 ≤ L p) ∧ (∀ p, L p ≤ (distinctPosCount L : ℤ)) ∧
    ∀ k : ℕ, k < distinctPosCount L → ∃ p, L p = (k : ℤ) + 1

/-- A pixel lying on the image border. -/
def isBorderPix {Ly Lx : ℕ} (p : Pix Ly Lx) : Bool :=
  decide (p.1.val = 0 ∨ p.1.val = Ly - 1 ∨ p.2.val = 0 ∨ p.2.val = Lx - 1)

/-- Background indicator of a label grid. -/
def bgB {Ly Lx : ℕ} (L : ZGrid Ly Lx) : BGrid Ly Lx :=
  fun q => decide (L q = 0)

/-- The connected component of background pixels containing p
(4-connectivity). -/
def bgComp {Ly Lx : ℕ} (L : ZGrid Ly Lx) (p : Pix Ly Lx) :
    Finset (Pix Ly Lx) :=
  reachSet (bgB L) p

/-- The distinct foreground labels 4-adjacent to a pixel set c, in row-major
order of first contact. -/
def adjLabelList {Ly Lx : ℕ} (L : ZGrid Ly Lx) (c : Finset (Pix Ly Lx)) :
    List ℤ :=
  (((pixList Ly Lx).filter
      (fun q => decide (L q ≠ 0 ∧ ∃ r ∈ c, adjPix r q = true))).map L).dedup

/-- The sole element of a one-element list of labels, 0 otherwise. -/
def singletonVal (l : List ℤ) : ℤ :=
  match l with
  | [v] => v
  | _ => 0

/-- A background pixel whose background component neither touches the image
border nor sees more than one (or zero) distinct foreground labels: the hole
notion of the Mask Sanitizer. -/
def IsHole {Ly Lx : ℕ} (L : ZGrid Ly Lx) (p : Pix Ly Lx) : Prop :=
  L p = 0 ∧ (¬ ∃ x ∈ bgComp L p, isBorderPix x = true) ∧
    (adjLabelList L (bgComp L p)).length = 1

/-- Modelled from the spec: step (1) of the Mask Sanitizer of
utils.fill_holes_and_remove_small_masks (called on line 794 of models.py but
not itself under src/): fill each topologically interior hole — a background
component fully enclosed by exactly one foreground label and not touching
the image border — with that label. -/
def fillHoles {Ly Lx : ℕ} (L : ZGrid Ly Lx) : ZGrid Ly Lx := fun p =>
  if L p ≠ 0 then L p
  else if ∃ x ∈ bgComp L p, isBorderPix x = true then 0
  else singletonVal (adjLabelList L (bgComp L p))

/-- Number of pixels carrying the label v. -/
def labelSize {Ly Lx : ℕ} (L : ZGrid Ly Lx) (v : ℤ) : ℕ :=
  (Finset.univ.filter (fun p => L p = v)).card

/-- Modelled from the spec: step (2) of the Mask Sanitizer: discard any
instance whose pixel count is below min_size; the value -1 disables the
filter. -/
def removeSmall {Ly Lx : ℕ} (minSize : ℤ) (L : ZGrid Ly Lx) : ZGrid Ly Lx :=
  fun p =>
    if minSize = -1 then L p
    else if L p ≠ 0 ∧ (labelSize L (L p) : ℤ) < minSize then 0 else L p

/-- The Mask Sanitizer of lines 794-795 of models.py: hole filling and
small-instance removal (modelled from the spec, as
utils.fill_holes_and_remove_small_masks is not under src/) followed by the
dense renumbering of fastremap.renumber. -/
def sanitizeMasks {Ly Lx : ℕ} (minSize : ℤ) (L : ZGrid Ly Lx) : ZGrid Ly Lx :=
  renumber (removeSmall minSize (fillHoles L))

/-- Translation of skimage.filters.apply_hysteresis_threshold (library call on
line 669): clip low to at most high, take the components of the image above
low, and keep those containing a pixel above high. -/
def applyHysteresisThreshold {Ly Lx : ℕ} (img : QGrid Ly Lx) (low high : ℚ) :
    BGrid Ly Lx :=
  fun p =>
    (decide (img p > min low high)) &&
      decide (∃ q ∈ reachSet (fun r => decide (img r > min low high)) p,
        img q > high)

/-- Lines 668-671 of _compute_masks: the foreground mask is the hysteresis
threshold of dist between dist_threshold-1 and dist_threshold in skeleton
mode, and the plain comparison dist > dist_threshold otherwise. -/
def seedMask {Ly Lx : ℕ} (skel : Bool) (dist : QGrid Ly Lx)
    (distThreshold : ℚ) : BGrid Ly Lx :=
  if skel then applyHysteresisThreshold dist (distThreshold - 1) distThreshold
  else fun p => decide (dist p > distThreshold)

/-- Value of a neighbour cell at integer coordinates (y, x); cells outside the
image take the scipy border_value bv. -/
def nbrVal {Ly Lx : ℕ} (bv : Bool) (g : BGrid Ly Lx) (y x : ℤ) : Bool :=
  if hy : 0 ≤ y ∧ y < (Ly : ℤ) then
    if hx : 0 ≤ x ∧ x < (Lx : ℤ) then
      g (⟨y.toNat, by omega⟩, ⟨x.toNat, by omega⟩)
    else bv
  else bv

/-- One scipy.ndimage binary_dilation step with the default cross structuring
element; out-of-image cells take the value bv (border_value). -/
def dilStep {Ly Lx : ℕ} (bv : Bool) (g : BGrid Ly Lx) : BGrid Ly Lx :=
  fun p =>
    g p || nbrVal bv g ((p.1.val : ℤ) - 1) p.2.val ||
      nbrVal bv g ((p.1.val : ℤ) + 1) p.2.val ||
      nbrVal bv g p.1.val ((p.2.val : ℤ) - 1) ||
      nbrVal bv g p.1.val ((p.2.val : ℤ) + 1)

/-- One scipy.ndimage binary_erosion step with the default cross structuring
element; out-of-image cells take the value bv. -/
def eroStep {Ly Lx : ℕ} (bv : Bool) (g : BGrid Ly Lx) : BGrid Ly Lx :=
  fun p =>
    g p && nbrVal bv g ((p.1.val : ℤ) - 1) p.2.val &&
      nbrVal bv g ((p.1.val : ℤ) + 1) p.2.val &&
      nbrVal bv g p.1.val ((p.2.val : ℤ) - 1) &&
      nbrVal bv g p.1.val ((p.2.val : ℤ) + 1)

/-- scipy binary_opening(..., border_value=0, iterations=3) of line 765:
three erosions followed by three dilations. -/
def opening3 {Ly Lx : ℕ} (g : BGrid Ly Lx) : BGrid Ly Lx :=
  (dilStep false)^[3] ((eroStep false)^[3] g)

/-- Line 757: border_mask = binary_dilation(zeros, border_value=1,
iterations=5), the 5-pixel band along the image edge. -/
def borderBand (Ly Lx : ℕ) : BGrid Ly Lx :=
  (dilStep true)^[5] (fun _ => false)

/-- Lines 754-767 of _compute_masks: border correction of the rounded
landing-point skeleton.  border_px is the skeleton restricted to the band
(zeros elsewhere); with a 4-class model it is zeroed wherever bd > -1,
otherwise it is opened morphologically; the result is written back to the
skeleton on the band only. -/
def correctSkel {Ly Lx : ℕ} (nclasses : ℕ) (bd : QGrid Ly Lx)
    (skelmask : BGrid Ly Lx) : BGrid Ly Lx :=
  let borderMask := borderBand Ly Lx
  let borderPx0 : BGrid Ly Lx := fun p => if borderMask p then skelmask p else false
  let borderPx : BGrid Ly Lx :=
    if nclasses = 4 then fun p => if bd p > -1 then false else borderPx0 p
    else opening3 borderPx0
  fun p => if borderMask p then borderPx p else skelmask p

/-- A Python local variable bound to a numpy array: it aliases either the
caller-owned array object or a locally created one.  In-place updates (*=)
write through the binding; plain rebinding replaces the binding without
touching the caller's object. -/
structure NpRef (α : Type) where
  caller : α
  aliased : Bool
  fresh : α

/-- Binding of a freshly received function argument: it aliases the caller's
object. -/
def NpRef.start {α : Type} (a : α) : NpRef α := ⟨a, true, a⟩

/-- The array contents currently visible through the local name. -/
def NpRef.get {α : Type} (r : NpRef α) : α := if r.aliased then r.caller else r.fresh

/-- x = x.copy(): rebind the local name to a duplicate of the current
contents. -/
def NpRef.copy {α : Type} (r : NpRef α) : NpRef α := ⟨r.caller, false, r.get⟩

/-- x = e: rebind the local name to a new object holding a. -/
def NpRef.rebind {α : Type} (r : NpRef α) (a : α) : NpRef α := ⟨r.caller, false, a⟩

/-- x *= ... (or any in-place update f): mutate the bound object, writing
through to the caller's array when aliased. -/
def NpRef.imul {α : Type} (r : NpRef α) (f : α → α) : NpRef α :=
  if r.aliased then ⟨f r.caller, true, r.fresh⟩ else ⟨r.caller, false, f r.fresh⟩

/-- Flat row-major index Y*Lx+X used by the divergence buffers of
lines 718-728 (note: stride Lx, not the padded stride). -/
def flatIdx {Ly Lx : ℕ} (p : Pix Ly Lx) : ℕ := p.1.val * Lx + p.2.val

/-- Allocated length (Ly+2*pad)*(Lx+2*pad), pad = 1, of the flat buffers Tx
and Ty (lines 719-722). -/
def bufLen (Ly Lx : ℕ) : ℕ := (Ly + 2) * (Lx + 2)

/-- Foreground pixels in row-major order: Y, X = np.nonzero(mask)
(line 718). -/
def fgPixList {Ly Lx : ℕ} (mask : BGrid Ly Lx) : List (Pix Ly Lx) :=
  (pixList Ly Lx).filter mask

/-- The writes T[Y*Lx+X] = comp.reshape(Ly*Lx)[Y*Lx+X] of lines 721 and 723
over a zero-initialised flat buffer of bufLen entries. -/
def scatterBuf {Ly Lx : ℕ} (mask : BGrid Ly Lx) (comp : QGrid Ly Lx) : ℕ → ℚ :=
  (fgPixList mask).foldl
    (fun b p => fun j => if j = flatIdx p then comp p else b j)
    (fun _ => 0)

/-- Python sequence indexing of a flat buffer of length n: a negative index i
addresses element n+i; an index outside [-n, n) would raise IndexError
(modelled by the 0 default; the stencil-bound theorems show every tap issued
by the divergence computation lies inside [-n, n)). -/
def pyRead (n : ℕ) (b : ℕ → ℚ) (i : ℤ) : ℚ :=
  if 0 ≤ i ∧ i < (n : ℤ) then b i.toNat
  else if -(n : ℤ) ≤ i ∧ i < 0 then b (i + n).toNat
  else 0

/-- The eight flat tap indices of the stencil of lines 727-728 at a
foreground pixel (Y, X), in source order: (Y+2)Lx+X, (Y+1)Lx+X, (Y-1)Lx+X,
(Y-2)Lx+X for Ty, then YLx+X+2, YLx+X+1, YLx+X-1, YLx+X-2 for Tx. -/
def stencilTaps {Ly Lx : ℕ} (p : Pix Ly Lx) : List ℤ :=
  [((p.1.val : ℤ) + 2) * Lx + p.2.val,
   ((p.1.val : ℤ) + 1) * Lx + p.2.val,
   ((p.1.val : ℤ) - 1) * Lx + p.2.val,
   ((p.1.val : ℤ) - 2) * Lx + p.2.val,
   (p.1.val : ℤ) * Lx + p.2.val + 2,
   (p.1.val : ℤ) * Lx + p.2.val + 1,
   (p.1.val : ℤ) * Lx + p.2.val - 1,
   (p.1.val : ℤ) * Lx + p.2.val - 2]

/-- The stencil combination written to div[Y*Lx+X] by lines 727-728, reading
the Ty and Tx buffers at the eight tap indices with Python indexing. -/
def stencilAt {Ly Lx : ℕ} (ty tx : ℕ → ℚ) (p : Pix Ly Lx) : ℚ :=
  match stencilTaps p with
  | [a, b, c, d, e, f, g, h] =>
      pyRead (bufLen Ly Lx) ty a + 8 * pyRead (bufLen Ly Lx) ty b -
        8 * pyRead (bufLen Ly Lx) ty c - pyRead (bufLen Ly Lx) ty d +
        pyRead (bufLen Ly Lx) tx e + 8 * pyRead (bufLen Ly Lx) tx f -
        8 * pyRead (bufLen Ly Lx) tx g - pyRead (bufLen Ly Lx) tx h
  | _ => 0

/-- The raw divergence flat buffer of lines 726-728: zeros except at the
foreground flat indices, where the stencil combination is written. -/
def divRaw {Ly Lx : ℕ} (mask : BGrid Ly Lx) (dP : VGrid Ly Lx) : ℕ → ℚ :=
  (fgPixList mask).foldl
    (fun b p => fun j =>
      if j = flatIdx p then
        stencilAt (scatterBuf mask (fun q => (dP q).1))
          (scatterBuf mask (fun q => (dP q).2)) p
      else b j)
    (fun _ => 0)

/-- The divergence grid of the skeleton branch: the raw stencil buffer,
robustly normalised by transforms.normalize99 (outside src/, passed in as
n99), reshaped to (Ly, Lx) and read back at row-major positions
(lines 729-730). -/
def divergenceGrid {Ly Lx : ℕ} (n99 : ℕ → (ℕ → ℚ) → ℕ → ℚ)
    (mask : BGrid Ly Lx) (dP : VGrid Ly Lx) : QGrid Ly Lx :=
  fun p => n99 (Ly * Lx) (divRaw mask dP) (flatIdx p)

/-- Connected-component labelling with 4-connectivity
(skimage.measure.label(connectivity=1), line 769, an external library call):
each component is labelled by the row-major position of its first pixel plus
one, background by 0.  The values differ from skimage's gap-free numbering
only by order-preserving gaps, which the trailing fastremap.renumber
collapses to the same dense labels. -/
def ccLabel {Ly Lx : ℕ} (g : BGrid Ly Lx) : ZGrid Ly Lx := fun p =>
  if g p then
    ((fgPixList g).findIdx (fun q => decide (q ∈ reachSet g p)) : ℤ) + 1
  else 0

/-- The subroutines used by _compute_masks that live outside
src/cellpose/models.py: dynamics.follow_flows (returns final positions and
the foreground index list; trajectories are not consumed by any claim),
dynamics.get_masks, sklearn DBSCAN (given the squared neighbourhood radius
and min_samples, returns one label per point, -1 for noise),
utils.dist_to_diam, utils.diameters, transforms.normalize_field,
transforms.normalize99 and the cv2 nearest-neighbour resize. -/
structure ExtFns where
  followFlows : (Ly Lx : ℕ) → VGrid Ly Lx → BGrid Ly Lx → ℚ → Bool → Bool →
    Bool → (Pix Ly Lx → ℚ × ℚ) × List (Pix Ly Lx)
  getMasks : (Ly Lx : ℕ) → (Pix Ly Lx → ℚ × ℚ) → BGrid Ly Lx → VGrid Ly Lx →
    Option ℚ → ZGrid Ly Lx
  dbscanLabels : ℚ → ℕ → List (ℚ × ℚ) → List ℤ
  distToDiam : List ℚ → ℚ
  diamOf : (Ly Lx : ℕ) → BGrid Ly Lx → Bool → ℚ × ℚ
  normalizeField : (Ly Lx : ℕ) → VGrid Ly Lx → Bool → VGrid Ly Lx
  normalize99 : ℕ → (ℕ → ℚ) → ℕ → ℚ
  resizeNearest : (Ly Lx r0 r1 : ℕ) → ZGrid Ly Lx → ZGrid r0 r1

/-- Line 692: dt = np.abs(dist[mask]), the row-major list of absolute dist
values on foreground pixels. -/
def maskedAbsVals {Ly Lx : ℕ} (dist : QGrid Ly Lx) (mask : BGrid Ly Lx) :
    List ℚ :=
  (fgPixList mask).map (fun p => |dist p|)

/-- Lines 691-698: the estimated mean object diameter d of the skeleton
branch: utils.dist_to_diam of the masked absolute dist values for a 4-class
model, the first component of utils.diameters otherwise. -/
def skelDiam {Ly Lx : ℕ} (ext : ExtFns) (nclasses : ℕ) (skel : Bool)
    (dist : QGrid Ly Lx) (mask : BGrid Ly Lx) : ℚ :=
  if nclasses = 4 then ext.distToDiam (maskedAbsVals dist mask)
  else (ext.diamOf Ly Lx mask skel).1

/-- Lines 694 and 698: the DBSCAN neighbourhood radius, carried squared so it
stays rational: eps = 1+1/3 for a 4-class model, eps = sqrt(2) otherwise. -/
def skelEpsSq (nclasses : ℕ) : ℚ :=
  if nclasses = 4 then (1 + 1 / 3) ^ 2 else 2

/-- Lines 709-710: if d <= diam_threshold: cluster = True (the caller's flag
is kept otherwise). -/
def skelClusterFlag (cluster : Bool) (d diamThreshold : ℚ) : Bool :=
  cluster || decide (d ≤ diamThreshold)

/-- The operations applied to the local variable dP inside the skeleton
branch, in source order: dP = dP.copy() (line 701), dP *= mask (line 714),
dP = transforms.normalize_field(dP, skel=True) (line 715), dP *= div
(line 734, with div the divergence grid computed from the current dP). -/
def skelDPTrace {Ly Lx : ℕ} (ext : ExtFns) (mask : BGrid Ly Lx)
    (dP0 : VGrid Ly Lx) : NpRef (VGrid Ly Lx) :=
  let r1 := (NpRef.start dP0).copy
  let r2 := r1.imul (fun v => fun p => if mask p then v p else (0, 0))
  let r3 := r2.rebind (ext.normalizeField Ly Lx r2.get true)
  let dv := divergenceGrid ext.normalize99 mask r3.get
  r3.imul (fun v => fun p => ((v p).1 * dv p, (v p).2 * dv p))

/-- Sequential writes grid[p] = v over a zero grid (numpy fancy assignment;
with pairwise-distinct pixels the order is immaterial). -/
def writeLabels {Ly Lx : ℕ} (pairs : List (Pix Ly Lx × ℤ)) : ZGrid Ly Lx :=
  pairs.foldl (fun g pr => fun p => if p = pr.1 then pr.2 else g p) (fun _ => 0)

/-- Lines 746-748: mask[inds[:,0], inds[:,1]] = labels + 1, writing the
DBSCAN labels shifted by one onto the foreground pixels of a zero grid. -/
def clusterAssign {Ly Lx : ℕ} (labels : List ℤ) (inds : List (Pix Ly Lx)) :
    ZGrid Ly Lx :=
  writeLabels ((inds.zip labels).map (fun pl => (pl.1, pl.2 + 1)))

/-- np.rint on a clamped landing coordinate (line 750): round to the nearest
integer and keep it inside [0, n-1].  The fallback pixel d supplies the
positivity of n; Mathlib round resolves exact halves upward where np.rint
takes the even neighbour (follow_flows clamps positions inside the grid, so
the clamp is a formality). -/
def rintClamp {n : ℕ} (d : Fin n) (x : ℚ) : Fin n :=
  ⟨min (max (round x) 0).toNat (n - 1), by
    have hn : 0 < n := d.pos
    omega⟩

/-- Rounded integer landing position of one pixel (line 750). -/
def roundPos {Ly Lx : ℕ} (p0 : Pix Ly Lx) (pos : ℚ × ℚ) : Pix Ly Lx :=
  (rintClamp p0.1 pos.1, rintClamp p0.2 pos.2)

/-- The skeleton-mode branch of _compute_masks (lines 689-770): diameter and
eps selection, forced clustering below the diameter threshold, field
conditioning on a copy of dP, divergence reweighting, flow following, then
either DBSCAN clustering of the sub-pixel landing coordinates or
border-corrected connected-component labelling of the rounded landing-point
skeleton.  The skeleton branch calls follow_flows without the niter argument
(line 736), so the follow_flows default budget of 200 applies. -/
def skelBranch {Ly Lx : ℕ} (ext : ExtFns) (nclasses : ℕ) (skel : Bool)
    (cluster interp calcTrace : Bool) (dP0 : VGrid Ly Lx)
    (dist bd : QGrid Ly Lx) (mask : BGrid Ly Lx) (diamThreshold : ℚ) :
    ZGrid Ly Lx :=
  let d := skelDiam ext nclasses skel dist mask
  let cluster2 := skelClusterFlag cluster d diamThreshold
  let rdP := skelDPTrace ext mask dP0
  let pr := ext.followFlows Ly Lx rdP.get mask 200 interp skel calcTrace
  let newinds := pr.2.map (fun q => pr.1 q)
  if cluster2 then
    clusterAssign (ext.dbscanLabels (skelEpsSq nclasses) 3 newinds) pr.2
  else
    let rinds := (pr.2.zip newinds).map (fun qv => roundPos qv.1 qv.2)
    let skelmask : BGrid Ly Lx := fun p => decide (p ∈ rinds)
    let skelmask2 := correctSkel nclasses bd skelmask
    writeLabels (pr.2.zip (rinds.map (ccLabel skelmask2)))

/-- The original-algorithm branch of _compute_masks (lines 674-687, with
p = None): follow the flows of the fresh array dP * mask / 5. and group the
landing positions with dynamics.get_masks; the flow-error threshold is
suppressed for 3D. -/
def origBranch {Ly Lx : ℕ} (ext : ExtFns) (skel interp calcTrace do3D : Bool)
    (dP0 : VGrid Ly Lx) (mask : BGrid Ly Lx) (niter flowThreshold : ℚ) :
    ZGrid Ly Lx :=
  let dPArg : VGrid Ly Lx := fun p =>
    ((dP0 p).1 * (if mask p then 1 else 0) / 5,
     (dP0 p).2 * (if mask p then 1 else 0) / 5)
  let pr := ext.followFlows Ly Lx dPArg mask niter interp skel calcTrace
  ext.getMasks Ly Lx pr.1 mask dP0 (if do3D then none else some flowThreshold)

/-- The failure mode of _compute_masks: with an empty foreground mask and
resize = None (the do_3D and resample call paths), line 789 evaluates
np.zeros(None), which raises TypeError. -/
inductive CmErr where
  | zerosOfNone
  deriving DecidableEq

/-- CellposeModel._compute_masks (lines 664-796), 2D: threshold the distance
field into a foreground mask; if any pixel is foreground run the branch for
the selected regime and resize the labels when asked to, otherwise produce a
zero grid of the resize shape (lines 785-789, raising on resize = None); in
all surviving paths finish with hole filling / small-mask removal and dense
renumbering (lines 794-795).  The p and tr outputs are omitted: no claim
mentions them. -/
def computeMasks {Ly Lx : ℕ} (ext : ExtFns) (nclasses : ℕ)
    (skel cluster interp calcTrace do3D : Bool) (dP0 : VGrid Ly Lx)
    (dist bd : QGrid Ly Lx) (niter distThreshold diamThreshold flowThreshold : ℚ)
    (minSize : ℤ) (resize : Option (ℕ × ℕ)) :
    Except CmErr ((r0 : ℕ) × (r1 : ℕ) × ZGrid r0 r1) :=
  let mask := seedMask skel dist distThreshold
  if ∃ p, mask p = true then
    let pre : ZGrid Ly Lx :=
      if skel then
        skelBranch ext nclasses skel cluster interp calcTrace dP0 dist bd mask
          diamThreshold
      else origBranch ext skel interp calcTrace do3D dP0 mask niter flowThreshold
    match resize with
    | some (r0, r1) =>
        Except.ok ⟨r0, r1, sanitizeMasks minSize (ext.resizeNearest Ly Lx r0 r1 pre)⟩
    | none => Except.ok ⟨Ly, Lx, sanitizeMasks minSize pre⟩
  else
    match resize with
    | some (r0, r1) => Except.ok ⟨r0, r1, sanitizeMasks minSize (fun _ => 0)⟩
    | none => Except.error CmErr.zerosOfNone

/-- Line 628 of _run_cp: niter = 200 if do_3D else (1 / rescale * 200). -/
def runCpNiter (do3D : Bool) (rescale : ℚ) : ℚ :=
  if do3D then 200 else 1 / rescale * 200

/-- Modelled from the spec: dynamics.follow_flows (not under src/) consumes
the possibly fractional budget computed on line 628; per the spec the
effective iteration count is N = 200 for volumetric integration and
N = ceil(200 / rescale_factor) in 2D, i.e. the budget is ceiled to an
integer step count. -/
def followFlowsSteps (niter : ℚ) : ℤ := ⌈niter⌉

/-- A concrete instantiation of the external subroutines, used to evaluate
the pipeline at the witness inputs. -/
def trivialExt : ExtFns where
  followFlows := fun _ _ _ _ _ _ _ _ => (fun _ => (0, 0), [])
  getMasks := fun _ _ _ _ _ _ => fun _ => 0
  dbscanLabels := fun _ _ pts => pts.map (fun _ => (-1 : ℤ))
  distToDiam := fun _ => 0
  diamOf := fun _ _ _ _ => (0, 0)
  normalizeField := fun _ _ v _ => v
  normalize99 := fun _ b => b
  resizeNearest := fun _ _ _ _ _ => fun _ => 0

/-- The original-algorithm branch only reads the caller's dP: line 678 builds
the fresh array dP * mask / 5. and line 686 passes dP itself to the (pure)
dynamics.get_masks. -/
def origDPTrace {Ly Lx : ℕ} (dP0 : VGrid Ly Lx) : NpRef (VGrid Ly Lx) :=
  NpRef.start dP0

/-- The grid witnessing the non-idempotence of the Mask Sanitizer: a 3 by 3
block of label 1 whose centre pixel carries the one-pixel label 2. -/
def ex9 : ZGrid 3 3 := fun p => if p = ((1 : Fin 3), (1 : Fin 3)) then 2 else 1

/-- Foreground pixels of the witness grid for the DBSCAN-noise claim. -/
def w10inds : List (Pix 2 2) := [((0 : Fin 2), (0 : Fin 2)), ((1 : Fin 2), (1 : Fin 2))]

/-- DBSCAN labels of the witness: the first point is noise. -/
def w10labels : List ℤ := [-1, 0]

theorem adjPix_symm {Ly Lx : ℕ} (p q : Pix Ly Lx) : adjPix p q = adjPix q p := by
  simp only [adjPix, decide_eq_decide]
  constructor
  · rintro (⟨h1, h2⟩ | ⟨h1, h2⟩)
    · exact Or.inl ⟨h1.symm, h2.symm⟩
    · exact Or.inr ⟨h1.symm, h2.symm⟩
  · rintro (⟨h1, h2⟩ | ⟨h1, h2⟩)
    · exact Or.inl ⟨h1.symm, h2.symm⟩
    · exact Or.inr ⟨h1.symm, h2.symm⟩

theorem subset_expandSet {Ly Lx : ℕ} (P : BGrid Ly Lx) (S : Finset (Pix Ly Lx)) :
    S ⊆ expandSet P S :=
  Finset.subset_union_left

theorem expandSet_mono {Ly Lx : ℕ} (P : BGrid Ly Lx) {S T : Finset (Pix Ly Lx)}
    (h : S ⊆ T) : expandSet P S ⊆ expandSet P T := by
  intro q hq
  rcases Finset.mem_union.mp hq with h1 | h1
  · exact Finset.mem_union.mpr (Or.inl (h h1))
  · refine Finset.mem_union.mpr (Or.inr ?_)
    rcases Finset.mem_filter.mp h1 with ⟨hu, hP, r, hr, hadj⟩
    exact Finset.mem_filter.mpr ⟨hu, hP, r, h hr, hadj⟩

theorem iterate_expandSet_subset_succ {Ly Lx : ℕ} (P : BGrid Ly Lx)
    (S : Finset (Pix Ly Lx)) (n : ℕ) :
    (expandSet P)^[n] S ⊆ (expandSet P)^[n + 1] S := by
  induction n with
  | zero => simpa using subset_expandSet P S
  | succ n ih =>
    rw [Function.iterate_succ_apply', Function.iterate_succ_apply']
    exact expandSet_mono P ih

theorem iterate_expandSet_mono_steps {Ly Lx : ℕ} (P : BGrid Ly Lx)
    (S : Finset (Pix Ly Lx)) {m n : ℕ} (h : m ≤ n) :
    (expandSet P)^[m] S ⊆ (expandSet P)^[n] S := by
  induction n with
  | zero => simpa [Nat.le_zero.mp h] using Finset.Subset.refl _
  | succ n ih =>
    rcases Nat.lt_or_ge m (n + 1) with h1 | h1
    · exact (ih (Nat.lt_succ_iff.mp h1)).trans (iterate_expandSet_subset_succ P S n)
    · have : m = n + 1 := Nat.le_antisymm h h1
      subst this
      exact Finset.Subset.refl _

theorem mem_iterate_expandSet_reaches {Ly Lx : ℕ} (P : BGrid Ly Lx)
    (p : Pix Ly Lx) (n : ℕ) {q : Pix Ly Lx}
    (h : q ∈ (expandSet P)^[n] ({p} : Finset (Pix Ly Lx))) : Reaches P p q := by
  induction n generalizing q with
  | zero =>
    simp only [Function.iterate_zero_apply, Finset.mem_singleton] at h
    exact h ▸ Relation.ReflTransGen.refl
  | succ n ih =>
    rw [Function.iterate_succ_apply'] at h
    rcases Finset.mem_union.mp h with h1 | h1
    · exact ih h1
    · rcases Finset.mem_filter.mp h1 with ⟨-, hP, r, hr, hadj⟩
      exact Relation.ReflTransGen.tail (ih hr) ⟨hadj, hP⟩

theorem reaches_mem_iterate_expandSet {Ly Lx : ℕ} (P : BGrid Ly Lx)
    {p q : Pix Ly Lx} (h : Reaches P p q) :
    ∃ n, q ∈ (expandSet P)^[n] ({p} : Finset (Pix Ly Lx)) := by
  induction h with
  | refl => exact ⟨0, by simp⟩
  | tail _ hstep ih =>
    rcases ih with ⟨n, hn⟩
    refine ⟨n + 1, ?_⟩
    rw [Function.iterate_succ_apply']
    refine Finset.mem_union.mpr (Or.inr (Finset.mem_filter.mpr ?_))
    exact ⟨Finset.mem_univ _, hstep.2, _, hn, hstep.1⟩

theorem iterate_expandSet_eq_of_fix {Ly Lx : ℕ} (P : BGrid Ly Lx)
    (S : Finset (Pix Ly Lx)) {n : ℕ}
    (h : (expandSet P)^[n] S = (expandSet P)^[n + 1] S) :
    ∀ m, n ≤ m → (expandSet P)^[m] S = (expandSet P)^[n] S := by
  intro m hm
  induction m with
  | zero =>
    simp [Nat.le_zero.mp hm]
  | succ m ih =>
    rcases Nat.lt_or_ge n (m + 1) with h1 | h1
    · have hnm : n ≤ m := Nat.lt_succ_iff.mp h1
      calc (expandSet P)^[m + 1] S = expandSet P ((expandSet P)^[m] S) := by
            rw [Function.iterate_succ_apply']
        _ = expandSet P ((expandSet P)^[n] S) := by rw [ih hnm]
        _ = (expandSet P)^[n + 1] S := by rw [Function.iterate_succ_apply']
        _ = (expandSet P)^[n] S := h.symm
    · have : n = m + 1 := Nat.le_antisymm hm h1
      simp [this]

theorem iterate_expandSet_stab_or_card {Ly Lx : ℕ} (P : BGrid Ly Lx)
    (p : Pix Ly Lx) :
    ∀ n, (expandSet P)^[n] ({p} : Finset (Pix Ly Lx)) = (expandSet P)^[n + 1] {p} ∨
      n + 1 ≤ ((expandSet P)^[n] ({p} : Finset (Pix Ly Lx))).card := by
  intro n
  induction n with
  | zero => simp
  | succ n ih =>
    rcases ih with h | h
    · left
      rw [Function.iterate_succ_apply' (expandSet P) n,
        Function.iterate_succ_apply' (expandSet P) (n + 1)]
      exact congrArg (expandSet P) h
    · by_cases heq : (expandSet P)^[n] ({p} : Finset (Pix Ly Lx)) =
        (expandSet P)^[n + 1] {p}
      · left
        rw [Function.iterate_succ_apply' (expandSet P) n,
          Function.iterate_succ_apply' (expandSet P) (n + 1)]
        exact congrArg (expandSet P) heq
      · right
        have hss : (expandSet P)^[n] ({p} : Finset (Pix Ly Lx)) ⊂
            (expandSet P)^[n + 1] {p} :=
          Finset.ssubset_iff_subset_ne.mpr
            ⟨iterate_expandSet_subset_succ P _ n, heq⟩
        have := Finset.card_lt_card hss
        omega

theorem mem_reachSet_iff {Ly Lx : ℕ} (P : BGrid Ly Lx) (p q : Pix Ly Lx) :
    q ∈ reachSet P p ↔ Reaches P p q := by
  constructor
  · exact mem_iterate_expandSet_reaches P p _
  · intro h
    rcases reaches_mem_iterate_expandSet P h with ⟨n, hn⟩
    rcases Nat.lt_or_ge n (Fintype.card (Pix Ly Lx)) with h1 | h1
    · exact iterate_expandSet_mono_steps P _ (Nat.le_of_lt h1) hn
    · have hfix : (expandSet P)^[Fintype.card (Pix Ly Lx)]
          ({p} : Finset (Pix Ly Lx)) =
          (expandSet P)^[Fintype.card (Pix Ly Lx) + 1] {p} := by
        rcases iterate_expandSet_stab_or_card P p (Fintype.card (Pix Ly Lx)) with
          h2 | h2
        · exact h2
        · exact absurd (le_trans h2 (Finset.card_le_univ _))
            (by simp [Finset.card_univ])
      rw [iterate_expandSet_eq_of_fix P ({p} : Finset (Pix Ly Lx)) hfix n h1] at hn
      exact hn

theorem reaches_mono {Ly Lx : ℕ} {P Q : BGrid Ly Lx}
    (hPQ : ∀ x, P x = true → Q x = true) {p q : Pix Ly Lx}
    (h : Reaches P p q) : Reaches Q p q := by
  induction h with
  | refl => exact Relation.ReflTransGen.refl
  | tail _ hstep ih => exact Relation.ReflTransGen.tail ih ⟨hstep.1, hPQ _ hstep.2⟩

theorem reaches_sat_or_eq {Ly Lx : ℕ} {P : BGrid Ly Lx} {p q : Pix Ly Lx}
    (h : Reaches P p q) : q = p ∨ P q = true := by
  induction h with
  | refl => exact Or.inl rfl
  | tail _ hstep _ => exact Or.inr hstep.2

theorem reaches_symm {Ly Lx : ℕ} {P : BGrid Ly Lx} {p q : Pix Ly Lx}
    (hp : P p = true) (h : Reaches P p q) : Reaches P q p := by
  induction h with
  | refl => exact Relation.ReflTransGen.refl
  | @tail b c hb hstep ih =>
    rcases reaches_sat_or_eq hb with hbp | hbP
    · subst hbp
      exact Relation.ReflTransGen.single ⟨(adjPix_symm b c) ▸ hstep.1, hp⟩
    · exact Relation.ReflTransGen.trans
        (Relation.ReflTransGen.single ⟨(adjPix_symm b c) ▸ hstep.1, hbP⟩) ih

theorem reaches_trans {Ly Lx : ℕ} {P : BGrid Ly Lx} {p q r : Pix Ly Lx}
    (h1 : Reaches P p q) (h2 : Reaches P q r) : Reaches P p r :=
  Relation.ReflTransGen.trans h1 h2

/-- The pixels of the same connected region have the same reachable set. -/
theorem reachSet_eq_of_reaches {Ly Lx : ℕ} {P : BGrid Ly Lx} {p q : Pix Ly Lx}
    (hp : P p = true) (h : Reaches P p q) :
    reachSet P q = reachSet P p := by
  ext r
  rw [mem_reachSet_iff, mem_reachSet_iff]
  constructor
  · exact fun hr => reaches_trans h hr
  · exact fun hr => reaches_trans (reaches_symm hp h) hr

theorem mem_pixList {Ly Lx : ℕ} (p : Pix Ly Lx) : p ∈ pixList Ly Lx := by
  rcases p with ⟨y, x⟩
  simp [pixList, List.mem_flatMap]

theorem labelVals_nodup {Ly Lx : ℕ} (L : ZGrid Ly Lx) : (labelVals L).Nodup :=
  List.nodup_dedup _

theorem mem_labelVals {Ly Lx : ℕ} (L : ZGrid Ly Lx) (v : ℤ) :
    v ∈ labelVals L ↔ (∃ p, L p = v) ∧ v ≠ 0 := by
  simp only [labelVals, List.mem_dedup, List.mem_filter, List.mem_map,
    decide_eq_true_eq]
  constructor
  · rintro ⟨⟨p, -, hv⟩, hne⟩
    exact ⟨⟨p, hv⟩, hne⟩
  · rintro ⟨⟨p, hv⟩, hne⟩
    exact ⟨⟨p, mem_pixList p, hv⟩, hne⟩

theorem renumber_eq_zero_iff {Ly Lx : ℕ} (L : ZGrid Ly Lx) (p : Pix Ly Lx) :
    renumber L p = 0 ↔ L p = 0 := by
  unfold renumber
  by_cases h : L p = 0 <;> simp [h]
  omega

theorem renumber_nonneg {Ly Lx : ℕ} (L : ZGrid Ly Lx) (p : Pix Ly Lx) :
    0 ≤ renumber L p := by
  unfold renumber
  by_cases h : L p = 0 <;> simp [h]
  omega

theorem renumber_pos_val {Ly Lx : ℕ} (L : ZGrid Ly Lx) (p : Pix Ly Lx)
    (h : L p ≠ 0) :
    renumber L p = ((labelVals L).indexOf (L p) : ℤ) + 1 ∧
      (labelVals L).indexOf (L p) < (labelVals L).length := by
  refine ⟨by simp [renumber, h], ?_⟩
  exact List.indexOf_lt_length.mpr ((mem_labelVals L (L p)).mpr ⟨⟨p, rfl⟩, h⟩)

theorem renumber_hits_index {Ly Lx : ℕ} (L : ZGrid Ly Lx) (i : ℕ)
    (hi : i < (labelVals L).length) :
    ∃ p, renumber L p = (i : ℤ) + 1 := by
  have hmem : (labelVals L).get ⟨i, hi⟩ ∈ labelVals L := List.get_mem _ _ hi
  rcases (mem_labelVals L _).mp hmem with ⟨⟨p, hp⟩, hne⟩
  refine ⟨p, ?_⟩
  have hLp : L p ≠ 0 := by rw [hp]; exact hne
  have hidx : (labelVals L).indexOf (L p) = i := by
    rw [hp]
    exact List.get_indexOf (labelVals_nodup L) ⟨i, hi⟩
  simp [renumber, hLp, hidx]

theorem distinctPosCount_renumber {Ly Lx : ℕ} (L : ZGrid Ly Lx) :
    distinctPosCount (renumber L) = (labelVals L).length := by
  have hset : ((Finset.univ.image (renumber L)).filter (fun v => 0 < v)) =
      (Finset.range (labelVals L).length).image (fun i : ℕ => (i : ℤ) + 1) := by
    ext v
    simp only [Finset.mem_filter, Finset.mem_image, Finset.mem_univ, true_and,
      Finset.mem_range]
    constructor
    · rintro ⟨⟨p, hp⟩, hpos⟩
      have hLp : L p ≠ 0 := by
        intro h0
        rw [← hp] at hpos
        simp [renumber, h0] at hpos
      rcases renumber_pos_val L p hLp with ⟨hval, hlt⟩
      exact ⟨(labelVals L).indexOf (L p), hlt, by rw [← hp, hval]⟩
    · rintro ⟨i, hi, hv⟩
      rcases renumber_hits_index L i hi with ⟨p, hp⟩
      exact ⟨⟨p, by rw [hp, hv]⟩, by omega⟩
  unfold distinctPosCount
  rw [hset, Finset.card_image_of_injective _ (fun a b h => by omega),
    Finset.card_range]

/-- fastremap.renumber unconditionally produces a dense label range 1..K with
zero background. -/
theorem renumber_denseLabels {Ly Lx : ℕ} (L : ZGrid Ly Lx) :
    DenseLabels (renumber L) := by
  refine ⟨renumber_nonneg L, ?_, ?_⟩
  · intro p
    rw [distinctPosCount_renumber]
    by_cases h : L p = 0
    · simp [renumber, h]
    · rcases renumber_pos_val L p h with ⟨hval, hlt⟩
      rw [hval]
      omega
  · intro k hk
    rw [distinctPosCount_renumber] at hk
    exact renumber_hits_index L k hk

theorem dedup_map_of_injOn (f : ℤ → ℤ) :
    ∀ l : List ℤ, (∀ a ∈ l, ∀ b ∈ l, f a = f b → a = b) →
      (l.map f).dedup = l.dedup.map f := by
  intro l
  induction l with
  | nil => intro _; simp
  | cons a t ih =>
    intro hinj
    have ht : ∀ x ∈ t, ∀ y ∈ t, f x = f y → x = y := fun x hx y hy =>
      hinj x (List.mem_cons_of_mem a hx) y (List.mem_cons_of_mem a hy)
    by_cases hat : a ∈ t
    · have hfat : f a ∈ t.map f := List.mem_map.mpr ⟨a, hat, rfl⟩
      rw [List.map_cons, List.dedup_cons_of_mem hfat, List.dedup_cons_of_mem hat,
        ih ht]
    · have hfat : f a ∉ t.map f := by
        intro hmem
        rcases List.mem_map.mp hmem with ⟨b, hbt, hfb⟩
        have hab : a = b := hinj a (List.mem_cons_self a t) b
          (List.mem_cons_of_mem a hbt) hfb.symm
        exact hat (by rw [hab]; exact hbt)
      rw [List.map_cons, List.dedup_cons_of_not_mem hfat,
        List.dedup_cons_of_not_mem hat, List.map_cons, ih ht]

theorem indexOf_injOn (l : List ℤ) (a b : ℤ) (ha : a ∈ l) (hb : b ∈ l)
    (h : l.indexOf a = l.indexOf b) : a = b := by
  have ha2 := List.indexOf_get (List.indexOf_lt_length.mpr ha)
  have hb2 := List.indexOf_get (List.indexOf_lt_length.mpr hb)
  rw [← ha2, ← hb2]
  congr 1
  exact Fin.ext h

theorem labelVals_renumber {Ly Lx : ℕ} (L : ZGrid Ly Lx) :
    labelVals (renumber L) =
      (List.range (labelVals L).length).map (fun i : ℕ => (i : ℤ) + 1) := by
  have hmapped : List.map (renumber L) (pixList Ly Lx) =
      List.map
        (fun v : ℤ => if v = 0 then 0 else ((labelVals L).indexOf v : ℤ) + 1)
        (List.map L (pixList Ly Lx)) := by
    rw [List.map_map]
    rfl
  have hfilter : List.filter (fun v : ℤ => decide (v ≠ 0))
        (List.map
          (fun v : ℤ => if v = 0 then 0 else ((labelVals L).indexOf v : ℤ) + 1)
          (List.map L (pixList Ly Lx))) =
      List.map
        (fun v : ℤ => if v = 0 then 0 else ((labelVals L).indexOf v : ℤ) + 1)
        (List.filter (fun v : ℤ => decide (v ≠ 0))
          (List.map L (pixList Ly Lx))) := by
    rw [List.map_filter]
    congr 1
    apply List.filter_congr
    intro a _
    simp only [Function.comp_apply, decide_eq_decide]
    by_cases h0 : a = 0 <;> simp [h0]
    omega
  have hmem_vals : ∀ a ∈ List.filter (fun v : ℤ => decide (v ≠ 0))
      (List.map L (pixList Ly Lx)), a ∈ labelVals L := by
    intro a hmem
    exact List.mem_dedup.mpr hmem
  have hswap : List.map
        (fun v : ℤ => if v = 0 then 0 else ((labelVals L).indexOf v : ℤ) + 1)
        (List.filter (fun v : ℤ => decide (v ≠ 0))
          (List.map L (pixList Ly Lx))) =
      List.map (fun v : ℤ => ((labelVals L).indexOf v : ℤ) + 1)
        (List.filter (fun v : ℤ => decide (v ≠ 0))
          (List.map L (pixList Ly Lx))) := by
    apply List.map_eq_map_iff.mpr
    intro a hmem
    have hne : a ≠ 0 := by
      have := (List.mem_filter.mp hmem).2
      simpa using this
    simp [hne]
  have hinj : ∀ a ∈ List.filter (fun v : ℤ => decide (v ≠ 0))
        (List.map L (pixList Ly Lx)),
      ∀ b ∈ List.filter (fun v : ℤ => decide (v ≠ 0))
        (List.map L (pixList Ly Lx)),
      (fun v : ℤ => ((labelVals L).indexOf v : ℤ) + 1) a =
        (fun v : ℤ => ((labelVals L).indexOf v : ℤ) + 1) b → a = b := by
    intro a ha b hb hfab
    refine indexOf_injOn (labelVals L) a b (hmem_vals a ha) (hmem_vals b hb) ?_
    simp only at hfab
    omega
  have hmain : labelVals (renumber L) =
      List.map (fun v : ℤ => ((labelVals L).indexOf v : ℤ) + 1) (labelVals L) := by
    show (List.filter (fun v : ℤ => decide (v ≠ 0))
      (List.map (renumber L) (pixList Ly Lx))).dedup = _
    rw [hmapped, hfilter, hswap, dedup_map_of_injOn _ _ hinj]
    rfl
  rw [hmain]
  apply List.ext_get
  · simp
  · intro i h1 h2
    simp only [List.get_map, List.get_range]
    have hg : (labelVals L).indexOf ((labelVals L).get ⟨i, by simpa using h1⟩) = i :=
      List.get_indexOf (labelVals_nodup L) _
    rw [hg]

theorem renumber_renumber {Ly Lx : ℕ} (L : ZGrid Ly Lx) :
    renumber (renumber L) = renumber L := by
  funext p
  by_cases h0 : L p = 0
  · have hz : renumber L p = 0 := (renumber_eq_zero_iff L p).mpr h0
    simp [renumber, hz, h0]
  · rcases renumber_pos_val L p h0 with ⟨hval, hlt⟩
    have hnodup : ((List.range (labelVals L).length).map
        (fun i : ℕ => (i : ℤ) + 1)).Nodup :=
      (List.nodup_range _).map (fun a b h => by omega)
    have hgetj : ((List.range (labelVals L).length).map
        (fun i : ℕ => (i : ℤ) + 1)).get
          ⟨(labelVals L).indexOf (L p), by simpa using hlt⟩ =
        ((labelVals L).indexOf (L p) : ℤ) + 1 := by
      simp [List.get_map, List.get_range]
    have hidx : (labelVals (renumber L)).indexOf
        (((labelVals L).indexOf (L p) : ℤ) + 1) = (labelVals L).indexOf (L p) := by
      rw [labelVals_renumber L, ← hgetj]
      exact List.get_indexOf hnodup _
    have hnz : renumber L p ≠ 0 := by
      rw [hval]; omega
    show (if renumber L p = 0 then 0
      else ((labelVals (renumber L)).indexOf (renumber L p) : ℤ) + 1) = renumber L p
    rw [if_neg hnz, hval, hidx]

theorem removeSmall_neg_one {Ly Lx : ℕ} (L : ZGrid Ly Lx) :
    removeSmall (-1) L = L := by
  funext p
  simp [removeSmall]

theorem fillHoles_fg {Ly Lx : ℕ} (L : ZGrid Ly Lx) (p : Pix Ly Lx)
    (h : L p ≠ 0) : fillHoles L p = L p := by
  simp [fillHoles, h]

theorem singletonVal_mem (l : List ℤ) (h : singletonVal l ≠ 0) :
    singletonVal l ∈ l := by
  rcases l with - | ⟨v, - | ⟨w, t⟩⟩
  · exact absurd rfl h
  · exact List.mem_singleton_self v
  · exact absurd rfl h

theorem singletonVal_of_length_ne_one (l : List ℤ) (h : l.length ≠ 1) :
    singletonVal l = 0 := by
  rcases l with - | ⟨v, - | ⟨w, t⟩⟩
  · rfl
  · exact absurd rfl h
  · rfl

theorem adjLabelList_ne_zero {Ly Lx : ℕ} (L : ZGrid Ly Lx)
    (c : Finset (Pix Ly Lx)) (v : ℤ) (h : v ∈ adjLabelList L c) : v ≠ 0 := by
  rcases List.mem_map.mp (List.mem_dedup.mp h) with ⟨q, hq, hv⟩
  have := (List.mem_filter.mp hq).2
  rw [← hv]
  exact (decide_eq_true_eq.mp this).1

theorem fillHoles_bg_sub {Ly Lx : ℕ} (L : ZGrid Ly Lx) (p : Pix Ly Lx)
    (h : fillHoles L p = 0) : L p = 0 := by
  by_contra hne
  rw [fillHoles_fg L p hne] at h
  exact hne h

theorem fillHoles_of_not_hole {Ly Lx : ℕ} (L : ZGrid Ly Lx) (p : Pix Ly Lx)
    (h0 : L p = 0) (h : ¬ IsHole L p) : fillHoles L p = 0 := by
  unfold fillHoles
  rw [if_neg (show ¬L p ≠ 0 from fun hc => hc h0)]
  by_cases hb : ∃ x ∈ bgComp L p, isBorderPix x = true
  · rw [if_pos hb]
  · rw [if_neg hb]
    apply singletonVal_of_length_ne_one
    intro hlen
    exact h ⟨h0, hb, hlen⟩

theorem fillHoles_eq_zero_iff {Ly Lx : ℕ} (L : ZGrid Ly Lx) (p : Pix Ly Lx) :
    fillHoles L p = 0 ↔ L p = 0 ∧ ¬ IsHole L p := by
  constructor
  · intro h
    have h0 : L p = 0 := fillHoles_bg_sub L p h
    refine ⟨h0, fun hhole => ?_⟩
    have hval : fillHoles L p = singletonVal (adjLabelList L (bgComp L p)) := by
      unfold fillHoles
      rw [if_neg (show ¬L p ≠ 0 from fun hc => hc h0), if_neg hhole.2.1]
    rw [hval] at h
    rcases hhole with ⟨-, -, hlen⟩
    rcases List.length_eq_one.mp hlen with ⟨v, hv⟩
    have hvne : v ≠ 0 := adjLabelList_ne_zero L _ v
      (by rw [hv]; exact List.mem_singleton_self v)
    have hsv : singletonVal (adjLabelList L (bgComp L p)) = v := by
      unfold singletonVal
      rw [hv]
    rw [hsv] at h
    exact hvne h
  · exact fun ⟨h0, h⟩ => fillHoles_of_not_hole L p h0 h

theorem mem_bgComp_bg {Ly Lx : ℕ} (L : ZGrid Ly Lx) {p q : Pix Ly Lx}
    (h0 : L p = 0) (h : q ∈ bgComp L p) : L q = 0 := by
  rcases reaches_sat_or_eq ((mem_reachSet_iff (bgB L) p q).mp h) with h1 | h1
  · rw [h1]; exact h0
  · simpa [bgB] using h1

theorem bgComp_eq_of_mem {Ly Lx : ℕ} (L : ZGrid Ly Lx) {p q : Pix Ly Lx}
    (h0 : L p = 0) (h : q ∈ bgComp L p) : bgComp L q = bgComp L p :=
  reachSet_eq_of_reaches (by simpa [bgB] using h0)
    ((mem_reachSet_iff (bgB L) p q).mp h)

theorem fillHoles_comp_const {Ly Lx : ℕ} (L : ZGrid Ly Lx) {p q : Pix Ly Lx}
    (h0 : L p = 0) (h : q ∈ bgComp L p) : fillHoles L q = fillHoles L p := by
  have hq0 : L q = 0 := mem_bgComp_bg L h0 h
  have hcomp := bgComp_eq_of_mem L h0 h
  unfold fillHoles
  rw [if_neg (show ¬L q ≠ 0 from fun hc => hc hq0),
    if_neg (show ¬L p ≠ 0 from fun hc => hc h0), hcomp]

theorem bgComp_fillHoles {Ly Lx : ℕ} (L : ZGrid Ly Lx) (p : Pix Ly Lx)
    (hp : fillHoles L p = 0) : bgComp (fillHoles L) p = bgComp L p := by
  have hp0 : L p = 0 := fillHoles_bg_sub L p hp
  ext q
  rw [bgComp, bgComp, mem_reachSet_iff, mem_reachSet_iff]
  constructor
  · intro h
    exact reaches_mono (fun x hx => by
      have hx0 : fillHoles L x = 0 := by simpa [bgB] using hx
      simpa [bgB] using fillHoles_bg_sub L x hx0) h
  · intro h
    induction h with
    | refl => exact Relation.ReflTransGen.refl
    | @tail b c hb hstep ih =>
      have hcmem : c ∈ bgComp L p := (mem_reachSet_iff (bgB L) p c).mpr
        (Relation.ReflTransGen.tail hb hstep)
      have hcfill : fillHoles L c = 0 := by
        rw [fillHoles_comp_const L hp0 hcmem, hp]
      exact Relation.ReflTransGen.tail ih ⟨hstep.1, by simpa [bgB] using hcfill⟩

theorem adjLabelList_fillHoles {Ly Lx : ℕ} (L : ZGrid Ly Lx) (p : Pix Ly Lx)
    (hp : fillHoles L p = 0) :
    adjLabelList (fillHoles L) (bgComp L p) = adjLabelList L (bgComp L p) := by
  have hp0 : L p = 0 := fillHoles_bg_sub L p hp
  have hfilter : (pixList Ly Lx).filter
      (fun q => decide (fillHoles L q ≠ 0 ∧ ∃ r ∈ bgComp L p, adjPix r q = true)) =
      (pixList Ly Lx).filter
        (fun q => decide (L q ≠ 0 ∧ ∃ r ∈ bgComp L p, adjPix r q = true)) := by
    apply List.filter_congr
    intro q hqmem2
    simp only [decide_eq_decide]
    constructor
    · rintro ⟨hne, r, hr, hadj⟩
      refine ⟨?_, r, hr, hadj⟩
      intro hq0
      have hqmem : q ∈ bgComp L p := by
        rw [bgComp, mem_reachSet_iff]
        exact Relation.ReflTransGen.tail
          ((mem_reachSet_iff (bgB L) p r).mp hr)
          ⟨hadj, by simpa [bgB] using hq0⟩
      exact hne (by rw [fillHoles_comp_const L hp0 hqmem, hp])
    · rintro ⟨hne, hex⟩
      exact ⟨by rw [fillHoles_fg L q hne]; exact hne, hex⟩
  unfold adjLabelList
  rw [hfilter]
  congr 1
  apply List.map_eq_map_iff.mpr
  intro q hq
  exact fillHoles_fg L q (decide_eq_true_eq.mp ((List.mem_filter.mp hq).2)).1

theorem bgB_renumber {Ly Lx : ℕ} (M : ZGrid Ly Lx) : bgB (renumber M) = bgB M := by
  funext q
  simp [bgB, renumber_eq_zero_iff]

theorem bgComp_renumber {Ly Lx : ℕ} (M : ZGrid Ly Lx) (p : Pix Ly Lx) :
    bgComp (renumber M) p = bgComp M p := by
  unfold bgComp
  rw [bgB_renumber]

theorem adjLabelList_length_renumber {Ly Lx : ℕ} (M : ZGrid Ly Lx)
    (c : Finset (Pix Ly Lx)) :
    (adjLabelList (renumber M) c).length = (adjLabelList M c).length := by
  unfold adjLabelList
  have hfilter : (pixList Ly Lx).filter
      (fun q => decide (renumber M q ≠ 0 ∧ ∃ r ∈ c, adjPix r q = true)) =
      (pixList Ly Lx).filter
        (fun q => decide (M q ≠ 0 ∧ ∃ r ∈ c, adjPix r q = true)) := by
    apply List.filter_congr
    intro q hqmem2
    simp [renumber_eq_zero_iff]
  rw [hfilter]
  have hmap : List.map (renumber M)
      ((pixList Ly Lx).filter
        (fun q => decide (M q ≠ 0 ∧ ∃ r ∈ c, adjPix r q = true))) =
      List.map (fun v : ℤ => if v = 0 then 0 else ((labelVals M).indexOf v : ℤ) + 1)
        (List.map M ((pixList Ly Lx).filter
          (fun q => decide (M q ≠ 0 ∧ ∃ r ∈ c, adjPix r q = true)))) := by
    rw [List.map_map]
    rfl
  rw [hmap]
  have hmem_vals : ∀ a ∈ List.map M ((pixList Ly Lx).filter
      (fun q => decide (M q ≠ 0 ∧ ∃ r ∈ c, adjPix r q = true))), a ∈ labelVals M := by
    intro a ha
    rcases List.mem_map.mp ha with ⟨q, hq, hval⟩
    refine (mem_labelVals M a).mpr ⟨⟨q, hval⟩, ?_⟩
    rw [← hval]
    exact (decide_eq_true_eq.mp ((List.mem_filter.mp hq).2)).1
  have hswap : List.map
      (fun v : ℤ => if v = 0 then 0 else ((labelVals M).indexOf v : ℤ) + 1)
      (List.map M ((pixList Ly Lx).filter
        (fun q => decide (M q ≠ 0 ∧ ∃ r ∈ c, adjPix r q = true)))) =
      List.map (fun v : ℤ => ((labelVals M).indexOf v : ℤ) + 1)
        (List.map M ((pixList Ly Lx).filter
          (fun q => decide (M q ≠ 0 ∧ ∃ r ∈ c, adjPix r q = true)))) := by
    apply List.map_eq_map_iff.mpr
    intro a ha
    have : a ≠ 0 := ((mem_labelVals M a).mp (hmem_vals a ha)).2
    simp [this]
  rw [hswap, dedup_map_of_injOn _ _ ?hinj, List.length_map]
  case hinj =>
    intro a ha b hb hab
    refine indexOf_injOn (labelVals M) a b (hmem_vals a ha) (hmem_vals b hb) ?_
    simp only at hab
    omega

theorem isHole_renumber_iff {Ly Lx : ℕ} (M : ZGrid Ly Lx) (p : Pix Ly Lx) :
    IsHole (renumber M) p ↔ IsHole M p := by
  unfold IsHole
  rw [renumber_eq_zero_iff, bgComp_renumber, adjLabelList_length_renumber]

theorem fillHoles_fillHoles {Ly Lx : ℕ} (L : ZGrid Ly Lx) :
    fillHoles (fillHoles L) = fillHoles L := by
  funext p
  by_cases hp : fillHoles L p = 0
  · rw [hp]
    apply fillHoles_of_not_hole _ p hp
    intro hhole
    rcases (fillHoles_eq_zero_iff L p).mp hp with ⟨hp0, hnothole⟩
    apply hnothole
    rcases hhole with ⟨-, hb, hlen⟩
    rw [bgComp_fillHoles L p hp] at hb hlen
    rw [adjLabelList_fillHoles L p hp] at hlen
    exact ⟨hp0, hb, hlen⟩
  · exact fillHoles_fg _ p hp

theorem fillHoles_renumber_fillHoles {Ly Lx : ℕ} (L : ZGrid Ly Lx) :
    fillHoles (renumber (fillHoles L)) = renumber (fillHoles L) := by
  funext p
  by_cases hp : renumber (fillHoles L) p = 0
  · rw [hp]
    apply fillHoles_of_not_hole _ p hp
    intro hhole
    have hhole2 : IsHole (fillHoles L) p := (isHole_renumber_iff _ p).mp hhole
    have hfp : fillHoles L p = 0 := (renumber_eq_zero_iff _ p).mp hp
    have h2 : fillHoles (fillHoles L) p = 0 := by
      rw [fillHoles_fillHoles]
      exact hfp
    exact ((fillHoles_eq_zero_iff (fillHoles L) p).mp h2).2 hhole2
  · exact fillHoles_fg _ p hp

/-- C6: the advection iteration budget is exactly 200 for 3D integration and
ceil(200 / rescale) for 2D (line 628 of _run_cp; the conversion of the
fractional 2D budget to a step count is modelled from the spec, as
dynamics.follow_flows is not under src/). -/
theorem claimC6_iteration_budget (do3D : Bool) (rescale : ℚ) :
    followFlowsSteps (runCpNiter do3D rescale) =
      if do3D then 200 else ⌈(200 : ℚ) / rescale⌉ := by
  cases do3D
  · simp only [runCpNiter, followFlowsSteps, if_false, Bool.false_eq_true]
    rw [one_div, inv_mul_eq_div]
  · simp only [runCpNiter, followFlowsSteps, if_true]
    norm_num

/-- C7: in skeleton mode without clustering, the rounded landing-point
skeleton is changed only inside the 5-pixel border band (5-iteration binary
dilation from the image edge): there, a 4-class model keeps a skeleton pixel
only where the boundary field does not exceed -1, and any other model
replaces the band content with the 3-iteration morphological opening of the
band-restricted skeleton; pixels outside the band are untouched
(lines 754-767). -/
theorem claimC7_border_correction {Ly Lx : ℕ} (nclasses : ℕ)
    (bd : QGrid Ly Lx) (sk : BGrid Ly Lx) (p : Pix Ly Lx) :
    correctSkel nclasses bd sk p =
      if borderBand Ly Lx p then
        (if nclasses = 4 then sk p && !(decide (bd p > -1))
         else opening3 (fun q => sk q && borderBand Ly Lx q) p)
      else sk p := by
  unfold correctSkel
  by_cases hb : borderBand Ly Lx p
  · rw [if_pos hb, if_pos hb]
    by_cases h4 : nclasses = 4
    · rw [if_pos h4, if_pos h4]
      by_cases hbd : bd p > -1
      · simp [hbd, hb]
      · simp [hbd, hb]
    · rw [if_neg h4, if_neg h4]
      have harg : (fun q => if borderBand Ly Lx q then sk q else false) =
          (fun q => sk q && borderBand Ly Lx q) := by
        funext q
        by_cases hq : borderBand Ly Lx q <;> simp [hq]
      rw [harg]
  · rw [if_neg hb, if_neg hb]

/-- C8: the caller's vector-field array dP is never mutated in place by
_compute_masks: the skeleton branch copies dP (line 701) before its in-place
updates (lines 714 and 734) and rebinding (line 715), and the original
branch only reads dP (lines 678 and 686), so the caller's array keeps its
original contents in both branches. -/
theorem claimC8_dP_preserved {Ly Lx : ℕ} (ext : ExtFns) (mask : BGrid Ly Lx)
    (dP0 : VGrid Ly Lx) :
    (skelDPTrace ext mask dP0).caller = dP0 ∧
      (origDPTrace dP0).caller = dP0 := by
  constructor
  · simp [skelDPTrace, NpRef.start, NpRef.copy, NpRef.imul, NpRef.rebind,
      NpRef.get]
  · rfl

/-- C9 (counterexample): with min_size = 2, sanitizing ex9 removes the
one-pixel label 2, leaving an enclosed background pixel; a second pass fills
it, so the sanitizer output is not a fixed point of the sanitizer. -/
theorem claimC9_counterexample :
    sanitizeMasks 2 (sanitizeMasks 2 ex9) ((1 : Fin 3), (1 : Fin 3)) ≠
      sanitizeMasks 2 ex9 ((1 : Fin 3), (1 : Fin 3)) := by
  decide

/-- C9 amended: with the small-instance filter disabled (min_size = -1) the
Mask Sanitizer is idempotent; with filtering enabled, removing a small
instance enclosed by another creates a hole that only the second pass fills
(see the counterexample). -/
theorem claimC9_idempotent_without_size_filter {Ly Lx : ℕ} (L : ZGrid Ly Lx) :
    sanitizeMasks (-1) (sanitizeMasks (-1) L) = sanitizeMasks (-1) L := by
  unfold sanitizeMasks
  simp only [removeSmall_neg_one]
  rw [fillHoles_renumber_fillHoles, renumber_renumber]

/-- C1 (code_bug evidence): with an all-background distance field (the
foreground mask is empty) and resize = None — exactly the do_3D and
resample call paths of _run_cp — the short-circuit branch of _compute_masks
evaluates mask = np.zeros(resize) with resize None (line 789), raising
TypeError instead of returning the all-zero label grid the spec promises. -/
theorem claimC1_empty_mask_resize_none_raises :
    computeMasks trivialExt 3 false false true false false
      (fun _ : Pix 2 2 => ((0 : ℚ), (0 : ℚ))) (fun _ => 0) (fun _ => 0)
      200 0 12 (2 / 5) 15 none = Except.error CmErr.zerosOfNone := by
  rfl

/-- C2: every label grid an accepted _compute_masks call returns has been
renumbered by fastremap.renumber (line 795), so it contains no negative
value, its positive labels form the dense range 1..K with no gaps, and its
maximum equals the number K of distinct positive labels. -/
theorem claimC2_output_labels_dense {Ly Lx : ℕ} (ext : ExtFns) (nclasses : ℕ)
    (skel cluster interp calcTrace do3D : Bool) (dP0 : VGrid Ly Lx)
    (dist bd : QGrid Ly Lx)
    (niter distThreshold diamThreshold flowThreshold : ℚ) (minSize : ℤ)
    (resize : Option (ℕ × ℕ)) (out : (r0 : ℕ) × (r1 : ℕ) × ZGrid r0 r1)
    (h : computeMasks ext nclasses skel cluster interp calcTrace do3D dP0 dist
      bd niter distThreshold diamThreshold flowThreshold minSize resize =
      Except.ok out) : DenseLabels out.2.2 := by
  unfold computeMasks at h
  by_cases hmask : ∃ p, seedMask skel dist distThreshold p = true
  · rw [if_pos hmask] at h
    rcases resize with - | ⟨r0, r1⟩
    · cases h
      exact renumber_denseLabels _
    · cases h
      exact renumber_denseLabels _
  · rw [if_neg hmask] at h
    rcases resize with - | ⟨r0, r1⟩
    · cases h
    · cases h
      exact renumber_denseLabels _

theorem claimC2_output_labels_dense_witness :
    computeMasks trivialExt 3 false false true false false
      (fun _ : Pix 2 2 => ((0 : ℚ), (0 : ℚ))) (fun _ => 0) (fun _ => 0)
      200 0 12 (2 / 5) 15 (some (1, 1)) =
      Except.ok ⟨1, 1, sanitizeMasks 15 (fun _ : Pix 1 1 => 0)⟩ ∧
    DenseLabels (sanitizeMasks 15 (fun _ : Pix 1 1 => (0 : ℤ))) :=
  ⟨rfl,
    claimC2_output_labels_dense trivialExt 3 false false true false false
      (fun _ : Pix 2 2 => ((0 : ℚ), (0 : ℚ))) (fun _ => 0) (fun _ => 0)
      200 0 12 (2 / 5) 15 (some (1, 1))
      ⟨1, 1, sanitizeMasks 15 (fun _ : Pix 1 1 => 0)⟩ rfl⟩

/-- C3: the foreground mask of _compute_masks is, in skeleton mode, the
hysteresis threshold of dist with low dist_threshold - 1 and high
dist_threshold — a pixel is kept iff it exceeds the low threshold and is
connected through above-low pixels to a pixel exceeding the high threshold —
and, otherwise, the pointwise comparison dist > dist_threshold
(lines 668-671). -/
theorem claimC3_seed_mask {Ly Lx : ℕ} (dist : QGrid Ly Lx) (t : ℚ)
    (p : Pix Ly Lx) :
    (seedMask true dist t p = true ↔
      (dist p > t - 1 ∧ ∃ q, dist q > t ∧
        Reaches (fun r => decide (dist r > t - 1)) p q)) ∧
    seedMask false dist t p = decide (dist p > t) := by
  refine ⟨?_, rfl⟩
  show applyHysteresisThreshold dist (t - 1) t p = true ↔ _
  unfold applyHysteresisThreshold
  have hmin : min (t - 1) t = t - 1 := min_eq_left (by linarith)
  simp only [hmin, Bool.and_eq_true, decide_eq_true_eq]
  constructor
  · rintro ⟨h1, q, hq, hhigh⟩
    exact ⟨h1, q, hhigh, (mem_reachSet_iff _ p q).mp hq⟩
  · rintro ⟨h1, q, hhigh, hreach⟩
    exact ⟨h1, q, (mem_reachSet_iff _ p q).mpr hreach, hhigh⟩

/-- C4: in skeleton mode, whenever the estimated mean diameter is at or below
diam_threshold, clustering is forced regardless of the caller's flag
(lines 709-710) and the labels are produced by DBSCAN with min_samples = 3
(line 746) and neighbourhood radius 1 + 1/3 for a 4-class model and sqrt 2
otherwise (lines 694 and 698). -/
theorem claimC4_forced_clustering {Ly Lx : ℕ} (ext : ExtFns) (nclasses : ℕ)
    (skel cluster interp calcTrace : Bool) (dP0 : VGrid Ly Lx)
    (dist bd : QGrid Ly Lx) (mask : BGrid Ly Lx) (diamThreshold : ℚ)
    (h : skelDiam ext nclasses skel dist mask ≤ diamThreshold) :
    skelClusterFlag cluster (skelDiam ext nclasses skel dist mask)
        diamThreshold = true ∧
    skelBranch ext nclasses skel cluster interp calcTrace dP0 dist bd mask
        diamThreshold =
      clusterAssign
        (ext.dbscanLabels (skelEpsSq nclasses) 3
          ((ext.followFlows Ly Lx (skelDPTrace ext mask dP0).get mask 200 interp
              skel calcTrace).2.map
            (fun q => (ext.followFlows Ly Lx (skelDPTrace ext mask dP0).get mask
              200 interp skel calcTrace).1 q)))
        (ext.followFlows Ly Lx (skelDPTrace ext mask dP0).get mask 200 interp
          skel calcTrace).2 ∧
    Real.sqrt ((skelEpsSq nclasses : ℚ) : ℝ) =
      (if nclasses = 4 then 1 + 1 / 3 else Real.sqrt 2) := by
  have hflag : skelClusterFlag cluster (skelDiam ext nclasses skel dist mask)
      diamThreshold = true := by
    simp [skelClusterFlag, h]
  refine ⟨hflag, ?_, ?_⟩
  · unfold skelBranch
    simp only [hflag, if_true]
  · by_cases h4 : nclasses = 4
    · rw [if_pos h4]
      simp only [skelEpsSq, if_pos h4]
      rw [show (((1 + 1 / 3 : ℚ) ^ 2 : ℚ) : ℝ) = (4 / 3 : ℝ) ^ 2 by
        push_cast; norm_num]
      rw [Real.sqrt_sq (by norm_num : (0 : ℝ) ≤ 4 / 3)]
      norm_num
    · rw [if_neg h4]
      simp only [skelEpsSq, if_neg h4]
      norm_num

theorem claimC4_forced_clustering_witness :
    skelDiam trivialExt 4 true (fun _ : Pix 1 1 => 0) (fun _ => true) ≤ 12 ∧
    (skelClusterFlag false
        (skelDiam trivialExt 4 true (fun _ : Pix 1 1 => 0) (fun _ => true))
        12 = true ∧
      skelBranch trivialExt 4 true false true false
          (fun _ : Pix 1 1 => ((0 : ℚ), (0 : ℚ))) (fun _ => 0) (fun _ => 0)
          (fun _ => true) 12 =
        clusterAssign
          (trivialExt.dbscanLabels (skelEpsSq 4) 3
            ((trivialExt.followFlows 1 1
                (skelDPTrace trivialExt (fun _ => true)
                  (fun _ : Pix 1 1 => ((0 : ℚ), (0 : ℚ)))).get (fun _ => true)
                200 true true false).2.map
              (fun q => (trivialExt.followFlows 1 1
                (skelDPTrace trivialExt (fun _ => true)
                  (fun _ : Pix 1 1 => ((0 : ℚ), (0 : ℚ)))).get (fun _ => true)
                200 true true false).1 q)))
          (trivialExt.followFlows 1 1
            (skelDPTrace trivialExt (fun _ => true)
              (fun _ : Pix 1 1 => ((0 : ℚ), (0 : ℚ)))).get (fun _ => true)
            200 true true false).2 ∧
      Real.sqrt ((skelEpsSq 4 : ℚ) : ℝ) =
        (if 4 = 4 then 1 + 1 / 3 else Real.sqrt 2)) :=
  ⟨by decide,
    claimC4_forced_clustering trivialExt 4 true false true false
      (fun _ : Pix 1 1 => ((0 : ℚ), (0 : ℚ))) (fun _ => 0) (fun _ => 0)
      (fun _ => true) 12 (by decide)⟩

theorem flatIdx_lt {Ly Lx : ℕ} (q : Pix Ly Lx) : flatIdx q < Ly * Lx := by
  unfold flatIdx
  calc q.1.val * Lx + q.2.val < q.1.val * Lx + Lx :=
        Nat.add_lt_add_left q.2.isLt _
    _ = (q.1.val + 1) * Lx := by ring
    _ ≤ Ly * Lx := Nat.mul_le_mul_right Lx q.1.isLt

theorem foldl_scatter_out {Ly Lx : ℕ} (f : Pix Ly Lx → ℚ) :
    ∀ (l : List (Pix Ly Lx)) (b : ℕ → ℚ) (j : ℕ), Ly * Lx ≤ j →
      (l.foldl (fun b2 p => fun k => if k = flatIdx p then f p else b2 k) b) j =
        b j := by
  intro l
  induction l with
  | nil => intro b j hj; rfl
  | cons q t ih =>
    intro b j hj
    rw [List.foldl_cons, ih _ j hj]
    have hne : j ≠ flatIdx q := by
      have := flatIdx_lt q
      omega
    simp [hne]

theorem bufLen_cast {Ly Lx : ℕ} :
    (bufLen Ly Lx : ℤ) = ((Ly * Lx : ℕ) : ℤ) + 2 * Ly + 2 * Lx + 4 := by
  unfold bufLen
  push_cast
  ring

theorem pyRead_scatter_neg {Ly Lx : ℕ} (mask : BGrid Ly Lx)
    (comp : QGrid Ly Lx) {t : ℤ} (hlow : -2 * (Lx : ℤ) - 2 ≤ t) (ht : t < 0) :
    pyRead (bufLen Ly Lx) (scatterBuf mask comp) t = 0 := by
  have hN := @bufLen_cast Ly Lx
  have hprod : (0 : ℤ) ≤ ((Ly * Lx : ℕ) : ℤ) := Int.natCast_nonneg _
  have hLy : (0 : ℤ) ≤ (Ly : ℤ) := Int.natCast_nonneg _
  unfold pyRead
  rw [if_neg (fun hc => (by omega : ¬(0 : ℤ) ≤ t) hc.1),
    if_pos ⟨by linarith, ht⟩]
  unfold scatterBuf
  apply foldl_scatter_out
  have h1 : ((Ly * Lx : ℕ) : ℤ) ≤ t + (bufLen Ly Lx : ℤ) := by linarith
  generalize hA : Ly * Lx = A at h1 ⊢
  generalize hB : bufLen Ly Lx = B at h1 ⊢
  omega

theorem tap_bound2 {Ly Lx : ℕ} {y x t : ℤ} (hy0 : 0 ≤ y) (hy : y < (Ly : ℤ))
    (hx0 : 0 ≤ x) (hx : x < (Lx : ℤ))
    (h1 : (y - 2) * Lx + (x - 2) ≤ t) (h2 : t ≤ (y + 2) * Lx + (x + 2)) :
    (-(bufLen Ly Lx : ℤ) ≤ t ∧ t < (bufLen Ly Lx : ℤ)) ∧
      -2 * (Lx : ℤ) - 2 ≤ t := by
  have hLy : (0 : ℤ) < Ly := lt_of_le_of_lt hy0 hy
  have hLx : (0 : ℤ) < Lx := lt_of_le_of_lt hx0 hx
  have hN : (bufLen Ly Lx : ℤ) = ((Ly : ℤ) + 2) * ((Lx : ℤ) + 2) := by
    unfold bufLen
    push_cast
    ring
  have hyl : y * Lx ≤ ((Ly : ℤ) - 1) * Lx :=
    mul_le_mul_of_nonneg_right (by linarith) (le_of_lt hLx)
  have hy2 : 0 ≤ y * Lx := mul_nonneg hy0 (le_of_lt hLx)
  refine ⟨⟨?_, ?_⟩, ?_⟩
  · rw [hN]
    nlinarith
  · rw [hN]
    nlinarith
  · nlinarith

/-- C5 (counterexample to the claim as stated): for a foreground pixel in the
top row — here (0,0) of a 3 by 3 all-foreground mask — the stencil of
lines 727-728 issues a negative flat tap index ((Y-2)*Lx+X = -6), so a
stencil tap does wrap around through a negative flat index instead of
staying inside a 2-pixel padding. -/
theorem claimC5_negative_tap :
    (((0, 0) : Pix 3 3) ∈ fgPixList (fun _ : Pix 3 3 => true)) ∧
    ∃ t ∈ stencilTaps ((0, 0) : Pix 3 3), t < 0 := by
  decide

/-- C5 amended: every stencil tap issued for a foreground pixel is a valid
Python index into the allocated (Ly+2)(Lx+2)-element flat buffer — it lies
in [-N, N), so no IndexError is possible, though taps from pixels near the
top edge are negative and wrap — and every wrapped (negative) tap lands in
the never-written tail of the zero-initialised buffer and reads 0. -/
theorem claimC5_taps_in_buffer {Ly Lx : ℕ} (mask : BGrid Ly Lx)
    (comp : QGrid Ly Lx) (p : Pix Ly Lx) (hp : p ∈ fgPixList mask) :
    ∀ t ∈ stencilTaps p,
      (-(bufLen Ly Lx : ℤ) ≤ t ∧ t < (bufLen Ly Lx : ℤ)) ∧
      (t < 0 → pyRead (bufLen Ly Lx) (scatterBuf mask comp) t = 0) := by
  intro t ht
  have hy0 : (0 : ℤ) ≤ p.1.val := Int.natCast_nonneg _
  have hy : (p.1.val : ℤ) < Ly := by exact_mod_cast p.1.isLt
  have hx0 : (0 : ℤ) ≤ p.2.val := Int.natCast_nonneg _
  have hx : (p.2.val : ℤ) < Lx := by exact_mod_cast p.2.isLt
  have hLx : (0 : ℤ) < Lx := lt_of_le_of_lt hx0 hx
  have key : ∀ s : ℤ,
      ((p.1.val : ℤ) - 2) * Lx + ((p.2.val : ℤ) - 2) ≤ s →
      s ≤ ((p.1.val : ℤ) + 2) * Lx + ((p.2.val : ℤ) + 2) →
      (-(bufLen Ly Lx : ℤ) ≤ s ∧ s < (bufLen Ly Lx : ℤ)) ∧
        (s < 0 → pyRead (bufLen Ly Lx) (scatterBuf mask comp) s = 0) := by
    intro s h1 h2
    rcases tap_bound2 hy0 hy hx0 hx h1 h2 with ⟨hb, hlow⟩
    exact ⟨hb, fun hsneg => pyRead_scatter_neg mask comp hlow hsneg⟩
  simp only [stencilTaps, List.mem_cons, List.not_mem_nil, or_false] at ht
  rcases ht with rfl | rfl | rfl | rfl | rfl | rfl | rfl | rfl <;>
    exact key _ (by nlinarith) (by nlinarith)

theorem claimC5_taps_in_buffer_witness :
    ((((0, 0) : Pix 3 3) ∈ fgPixList (fun _ : Pix 3 3 => true)) ∧
      ((-6 : ℤ) ∈ stencilTaps ((0, 0) : Pix 3 3))) ∧
    ((-(bufLen 3 3 : ℤ) ≤ -6 ∧ (-6 : ℤ) < (bufLen 3 3 : ℤ)) ∧
      pyRead (bufLen 3 3)
        (scatterBuf (fun _ : Pix 3 3 => true) (fun _ => 1)) (-6) = 0) :=
  ⟨⟨by decide, by decide⟩,
    (claimC5_taps_in_buffer (fun _ : Pix 3 3 => true) (fun _ => 1)
        ((0, 0) : Pix 3 3) (by decide) (-6) (by decide)).1,
    (claimC5_taps_in_buffer (fun _ : Pix 3 3 => true) (fun _ => 1)
        ((0, 0) : Pix 3 3) (by decide) (-6) (by decide)).2 (by decide)⟩

theorem foldl_write_skip {Ly Lx : ℕ} :
    ∀ (pairs : List (Pix Ly Lx × ℤ)) (g : ZGrid Ly Lx) (p : Pix Ly Lx),
      p ∉ pairs.map Prod.fst →
      (pairs.foldl (fun g2 pr => fun q => if q = pr.1 then pr.2 else g2 q) g) p =
        g p := by
  intro pairs
  induction pairs with
  | nil => intro g p _; rfl
  | cons a t ih =>
    intro g p h
    rw [List.map_cons] at h
    rw [List.foldl_cons, ih _ p (fun hm => h (List.mem_cons_of_mem _ hm))]
    have hne : p ≠ a.1 := fun he => h (he ▸ List.mem_cons_self _ _)
    simp [hne]

theorem foldl_write_mem {Ly Lx : ℕ} :
    ∀ (pairs : List (Pix Ly Lx × ℤ)) (g : ZGrid Ly Lx) (p : Pix Ly Lx) (v : ℤ),
      (pairs.map Prod.fst).Nodup → (p, v) ∈ pairs →
      (pairs.foldl (fun g2 pr => fun q => if q = pr.1 then pr.2 else g2 q) g) p =
        v := by
  intro pairs
  induction pairs with
  | nil => intro g p v _ h; cases h
  | cons a t ih =>
    intro g p v hnd hmem
    rw [List.map_cons] at hnd
    rcases List.mem_cons.mp hmem with he | hmem2
    · cases he.symm
      rw [List.foldl_cons, foldl_write_skip t _ p (List.nodup_cons.mp hnd).1]
      simp
    · rw [List.foldl_cons]
      exact ih _ p v (List.nodup_cons.mp hnd).2 hmem2

/-- C10: in the clustering path of the skeleton branch, the foreground pixel
inds[j] receives the value labels[j] + 1 on the pre-sanitization mask
(line 748); in particular a landing coordinate DBSCAN classifies as noise
(label -1) leaves its pixel at 0, background. -/
theorem claimC10_dbscan_noise_to_background {Ly Lx : ℕ} (labels : List ℤ)
    (inds : List (Pix Ly Lx)) (hnd : inds.Nodup)
    (hlen : labels.length = inds.length) (j : Fin inds.length) :
    clusterAssign labels inds (inds.get j) = labels.getD j.val 0 + 1 ∧
    (labels.getD j.val 0 = -1 → clusterAssign labels inds (inds.get j) = 0) := by
  have hjl : j.val < labels.length := by rw [hlen]; exact j.isLt
  have hzl : j.val < (inds.zip labels).length := by
    rw [List.length_zip, hlen, min_self]
    exact j.isLt
  have hgetd : labels.getD j.val 0 = labels.get ⟨j.val, hjl⟩ := by
    rw [List.getD_eq_getElem labels 0 hjl]
    rfl
  have hzget : (inds.zip labels).get ⟨j.val, hzl⟩ =
      (inds.get j, labels.get ⟨j.val, hjl⟩) := by
    simp [List.getElem_zip]
  have hmemz : (inds.get j, labels.get ⟨j.val, hjl⟩) ∈ inds.zip labels := by
    rw [← hzget]
    exact List.get_mem _ _ _
  have hmem : (inds.get j, labels.get ⟨j.val, hjl⟩ + 1) ∈
      (inds.zip labels).map (fun pl => (pl.1, pl.2 + 1)) :=
    List.mem_map.mpr ⟨_, hmemz, rfl⟩
  have hfst : ((inds.zip labels).map (fun pl => (pl.1, pl.2 + 1))).map Prod.fst =
      inds := by
    rw [List.map_map]
    have : (Prod.fst ∘ fun pl : Pix Ly Lx × ℤ => (pl.1, pl.2 + 1)) =
        Prod.fst := by
      funext pl
      rfl
    rw [this]
    exact List.map_fst_zip inds labels (by omega)
  have hval : clusterAssign labels inds (inds.get j) =
      labels.get ⟨j.val, hjl⟩ + 1 := by
    unfold clusterAssign writeLabels
    exact foldl_write_mem _ _ _ _ (by rw [hfst]; exact hnd) hmem
  constructor
  · rw [hval, hgetd]
  · intro hnoise
    rw [hval]
    rw [hgetd] at hnoise
    omega

theorem claimC10_dbscan_noise_to_background_witness :
    w10inds.Nodup ∧ w10labels.length = w10inds.length ∧
    (clusterAssign w10labels w10inds (w10inds.get ⟨0, by decide⟩) =
        w10labels.getD 0 0 + 1 ∧
      (w10labels.getD 0 0 = -1 →
        clusterAssign w10labels w10inds (w10inds.get ⟨0, by decide⟩) = 0)) :=
  ⟨by decide, by decide,
    claimC10_dbscan_noise_to_background w10labels w10inds (by decide) (by decide)
      ⟨0, by decide⟩⟩

